import Mathlib

/-!
# Verification of the lucid-memory core (crates/lucid-core)

A shallow embedding of the retrieval/activation mathematics of the
lucid-memory repository, translated from the Rust sources:

* `src/spreading.rs`  — multi-seed spreading activation over the association graph
* `src/activation.rs` — base-level decay, MINERVA-2 cube, logistic retrieval
  probability, working-memory boost, reconsolidation thresholds
* `src/retrieval.rs`  — the general retrieval pipeline
* `src/visual.rs`     — the visual retrieval pipeline and pruning candidates
* `src/location.rs`   — location familiarity decay

Modelling conventions:

* `f64` values are modelled as elements of a linear ordered field `F`.
  Functions that use only field arithmetic and comparisons are stated
  polymorphically, so they can be run on `ℚ` (for concrete evaluation by
  `decide`) and instantiated at `ℝ` inside the pipelines.  Functions that
  use `exp`, `ln`, `sqrt` or `powf` are stated over `ℝ`.
* `f64::NEG_INFINITY` (the base level of an empty access history) is
  modelled with `WithBot ℝ`; `is_finite` becomes "is not `⊥`".  `NaN` and
  overflow do not arise in the real-number model.
* A Rust indexing expression `v[i]` that can go out of bounds (a panic) is
  modelled with `List.get?`, propagating `none` through the function's
  result; total indexing on lists whose length is known is modelled with
  `List.getD`.
* Rust `sort_by` is a stable sort; it is modelled by `List.insertionSort`,
  which is stable.  The comparator `b.partial_cmp(a)` over reals is total
  (`NaN` does not exist in the model).
-/

set_option linter.unusedVariables false
set_option linter.unusedSectionVars false

namespace LucidCore

/-! ## Spreading activation (`src/spreading.rs`) -/

/-- An edge in the association graph (`Association` in `spreading.rs`). -/
structure Association (F : Type) where
  source : ℕ
  target : ℕ
  forward_strength : F
  backward_strength : F
deriving DecidableEq

/-- Configuration for spreading activation (`SpreadingConfig`). -/
structure SpreadingConfig (F : Type) where
  decay_per_hop : F
  minimum_activation : F
  max_nodes : ℕ
  bidirectional : Bool
deriving DecidableEq

/-- `SpreadingConfig::default()`. -/
def SpreadingConfig.default (F : Type) [LinearOrderedField F] : SpreadingConfig F :=
  { decay_per_hop := 7 / 10
    minimum_activation := 1 / 100
    max_nodes := 1000
    bidirectional := true }

/-- Result of spreading activation (`SpreadingResult`). -/
structure SpreadingResult (F : Type) where
  activations : List F
  visited_by_depth : List (List ℕ)
deriving DecidableEq

variable {F : Type} [LinearOrderedField F]

/-- `build_adjacency`: forward and backward adjacency lists.  The Rust code
pushes `(target, forward_strength)` onto `forward[source]` and
`(source, backward_strength)` onto `backward[target]` for each association
whose two indices are in range, iterating the association list in order.
Entry `i` of the resulting vector is therefore exactly the in-order
sublist of associations selected below. -/
def build_adjacency (associations : List (Association F)) (num_nodes : ℕ) :
    (ℕ → List (ℕ × F)) × (ℕ → List (ℕ × F)) :=
  (fun i =>
    (associations.filter fun a =>
        decide (a.source < num_nodes) && decide (a.target < num_nodes) &&
          decide (a.source = i)).map
      fun a => (a.target, a.forward_strength),
   fun i =>
    (associations.filter fun a =>
        decide (a.source < num_nodes) && decide (a.target < num_nodes) &&
          decide (a.target = i)).map
      fun a => (a.source, a.backward_strength))

/-- State of one depth iteration of `spread_activation`:
`next_activations` is a dense accumulator of length `num_nodes` modelling the
`HashMap<usize, f64>` (all keys come from adjacency lists, hence are `< num_nodes`;
iteration order of the map is irrelevant because commitment is a pointwise sum),
together with the visited set, the next frontier in discovery order, and the
running visited count. -/
structure HopState (F : Type) where
  next_activations : List F
  visited : List ℕ
  next_frontier : List ℕ
  total_visited : ℕ

/-- The inner edge loop of `spread_activation` for one source node: the
`total_visited >= max_nodes` break is checked before each edge, the
contribution is accumulated, and the target is inserted into the visited set
and the next frontier if new.  `attenuation` is `1` on the forward pass and
`7/10` on the backward pass (the reduced backward strength). -/
def spreadEdges (cfg : SpreadingConfig F) (source_activation fan attenuation : F) :
    List (ℕ × F) → HopState F → HopState F
  | [], st => st
  | (target_idx, strength) :: rest, st =>
    if cfg.max_nodes ≤ st.total_visited then st
    else
      let spread_amount := source_activation / fan * strength * cfg.decay_per_hop * attenuation
      let st₁ : HopState F :=
        { st with
          next_activations :=
            st.next_activations.set target_idx
              (st.next_activations.getD target_idx 0 + spread_amount) }
      let st₂ : HopState F :=
        if target_idx ∈ st₁.visited then st₁
        else
          { st₁ with
            visited := target_idx :: st₁.visited
            next_frontier := st₁.next_frontier ++ [target_idx]
            total_visited := st₁.total_visited + 1 }
      spreadEdges cfg source_activation fan attenuation rest st₂

/-- Processing of one frontier node: `activations[source_idx]` is the Rust
indexing that panics when `source_idx` is out of bounds (modelled by `none`),
sources below `minimum_activation` are skipped (`continue`), then the forward
pass runs, followed by the backward pass when bidirectional. -/
def spreadSource (cfg : SpreadingConfig F) (fAdj bAdj : ℕ → List (ℕ × F))
    (activations : List F) (source_idx : ℕ) (st : HopState F) : Option (HopState F) :=
  match activations.get? source_idx with
  | none => none
  | some source_activation =>
    if source_activation < cfg.minimum_activation then some st
    else
      let forward_edges := fAdj source_idx
      let fan : F := ((max forward_edges.length 1 : ℕ) : F)
      let st₁ := spreadEdges cfg source_activation fan 1 forward_edges st
      if cfg.bidirectional then
        let backward_edges := bAdj source_idx
        let back_fan : F := ((max backward_edges.length 1 : ℕ) : F)
        some (spreadEdges cfg source_activation back_fan (7 / 10) backward_edges st₁)
      else some st₁

/-- The loop over the current frontier. -/
def spreadFrontier (cfg : SpreadingConfig F) (fAdj bAdj : ℕ → List (ℕ × F))
    (activations : List F) : List ℕ → HopState F → Option (HopState F)
  | [], st => some st
  | s :: rest, st =>
    match spreadSource cfg fAdj bAdj activations s st with
    | none => none
    | some st' => spreadFrontier cfg fAdj bAdj activations rest st'

/-- The mutable state of `spread_activation` between depth iterations. -/
structure SpreadState (F : Type) where
  activations : List F
  visited : List ℕ
  visited_by_depth : List (List ℕ)
  frontier : List ℕ
  total_visited : ℕ

/-- The `for _ in 0..depth` loop of `spread_activation`: stop on the
`max_nodes` cap, process the frontier, stop (without committing the
accumulated contributions) when no new node was reached, otherwise commit the
contributions pointwise, record the new layer and recurse. -/
def spreadLoop (cfg : SpreadingConfig F) (fAdj bAdj : ℕ → List (ℕ × F)) :
    ℕ → SpreadState F → Option (SpreadState F)
  | 0, st => some st
  | depth + 1, st =>
    if cfg.max_nodes ≤ st.total_visited then some st
    else
      match spreadFrontier cfg fAdj bAdj st.activations st.frontier
          { next_activations := List.replicate st.activations.length 0
            visited := st.visited
            next_frontier := []
            total_visited := st.total_visited } with
      | none => none
      | some hop =>
        if hop.next_frontier = [] then some st
        else
          spreadLoop cfg fAdj bAdj depth
            { activations := List.zipWith (· + ·) st.activations hop.next_activations
              visited := hop.visited
              visited_by_depth := st.visited_by_depth ++ [hop.next_frontier]
              frontier := hop.next_frontier
              total_visited := hop.total_visited }

/-- Seed initialisation of `spread_activation`: walking `seed_indices` with
its enumeration index, `activations[idx] = seed_activations.get(i).unwrap_or(1.0)`
is performed only when `idx < num_nodes` (out-of-range seeds are skipped
here — but not in the frontier below). -/
def initSeeds (num_nodes : ℕ) : List F → List ℕ → List F → List F
  | activations, [], _ => activations
  | activations, idx :: rest, seed_acts =>
    let a := seed_acts.headD 1
    initSeeds num_nodes
      (if idx < num_nodes then activations.set idx a else activations) rest seed_acts.tail

/-- `spread_activation` (`spreading.rs` lines 103–204).  Returns `none` when
the Rust function panics (which happens for an out-of-range seed index that
reaches the frontier loop). -/
def spread_activation (num_nodes : ℕ) (associations : List (Association F))
    (seed_indices : List ℕ) (seed_activations : List F)
    (cfg : SpreadingConfig F) (depth : ℕ) : Option (SpreadingResult F) :=
  let adj := build_adjacency associations num_nodes
  let activations := initSeeds num_nodes (List.replicate num_nodes 0) seed_indices seed_activations
  match spreadLoop cfg adj.1 adj.2 depth
      { activations := activations
        visited := seed_indices
        visited_by_depth := [seed_indices]
        frontier := seed_indices
        total_visited := seed_indices.length } with
  | none => none
  | some st => some { activations := st.activations, visited_by_depth := st.visited_by_depth }

/-! ### Invariants used to reason about the spreading loop -/

/-- Mass of the current frontier: the sum of the frontier nodes' activations. -/
def frontierSum (st : SpreadState F) : F :=
  (st.frontier.map fun j => st.activations.getD j 0).sum

/-- Invariant of the inner hop state while processing one depth layer.
`V₀` is the visited set at the start of the layer. -/
structure HopInv (n : ℕ) (V₀ : List ℕ) (st : HopState F) : Prop where
  len : st.next_activations.length = n
  nonneg : ∀ x ∈ st.next_activations, 0 ≤ x
  zero_unvisited : ∀ j, j ∉ st.visited → st.next_activations.getD j 0 = 0
  visited_mono : ∀ j ∈ V₀, j ∈ st.visited
  frontier_new : ∀ j ∈ st.next_frontier, j ∉ V₀
  frontier_visited : ∀ j ∈ st.next_frontier, j ∈ st.visited
  frontier_nodup : st.next_frontier.Nodup
  frontier_lt : ∀ j ∈ st.next_frontier, j < n

/-- Invariant of the outer spreading state between depth layers. -/
structure StateInv (n : ℕ) (st : SpreadState F) : Prop where
  len : st.activations.length = n
  nonneg : ∀ x ∈ st.activations, 0 ≤ x
  zero_unvisited : ∀ j, j ∉ st.visited → st.activations.getD j 0 = 0
  frontier_nodup : st.frontier.Nodup
  frontier_lt : ∀ j ∈ st.frontier, j < n
  frontier_visited : ∀ j ∈ st.frontier, j ∈ st.visited
  vbd_ne : st.visited_by_depth ≠ []
  vbd_last : st.visited_by_depth.getD (st.visited_by_depth.length - 1) [] = st.frontier

/-! ## Activation primitives (`src/activation.rs`) -/

/-- `compute_base_level` (`activation.rs` lines 80–99).  An empty access
history yields `f64::NEG_INFINITY`, modelled by `⊥ : WithBot ℝ`.  Each term is
`((current - t).max(1000.0) / 1000.0).powf(-d)`; `powf` on a positive base is
`Real.rpow`. -/
noncomputable def compute_base_level (access_timestamps_ms : List ℝ)
    (current_time_ms decay_rate : ℝ) : WithBot ℝ :=
  if access_timestamps_ms = [] then ⊥
  else
    ((Real.log ((access_timestamps_ms.map fun timestamp =>
      (max (current_time_ms - timestamp) 1000 / 1000) ^ (-decay_rate)).sum) : ℝ) : WithBot ℝ)

/-- `cosine_similarity` (`activation.rs` lines 130–148): the fold over
`a.iter().zip(b.iter())` accumulating the dot product and the two squared
norms (written with `zipWith`/`map`; the length guard makes the zip total). -/
noncomputable def cosine_similarity (a b : List ℝ) : ℝ :=
  if a.length ≠ b.length then 0
  else
    let dot_product := (List.zipWith (· * ·) a b).sum
    let norm_a := (a.map fun x => x * x).sum
    let norm_b := (b.map fun x => x * x).sum
    let magnitude := Real.sqrt norm_a * Real.sqrt norm_b
    if magnitude = 0 then 0 else dot_product / magnitude

/-- `cosine_similarity_batch` (`activation.rs` lines 154–183): the probe norm
is computed once; a zero probe norm yields all zeros, a length-mismatched or
zero-norm trace yields 0 for that index. -/
noncomputable def cosine_similarity_batch (probe : List ℝ) (traces : List (List ℝ)) :
    List ℝ :=
  let probe_norm := Real.sqrt ((probe.map fun x => x * x).sum)
  if probe_norm = 0 then List.replicate traces.length 0
  else
    traces.map fun trace =>
      if trace.length ≠ probe.length then 0
      else
        let dot_product := (List.zipWith (· * ·) probe trace).sum
        let trace_norm := Real.sqrt ((trace.map fun x => x * x).sum)
        if trace_norm = 0 then 0 else dot_product / (probe_norm * trace_norm)

/-- `nonlinear_activation`: MINERVA-2 cube `similarity.powi(3)`. -/
def nonlinear_activation (similarity : F) : F :=
  similarity ^ 3

/-- `nonlinear_activation_batch`. -/
def nonlinear_activation_batch (similarities : List F) : List F :=
  similarities.map fun s => s ^ 3

/-- `ActivationBreakdown` (`activation.rs`). -/
structure ActivationBreakdown where
  probe_activation : ℝ
  base_level : ℝ
  spreading : ℝ
  emotional_weight : ℝ
  total : ℝ

/-- `combine_activations` (`activation.rs` lines 225–261).  The `f64`
`base_level` argument can be `NEG_INFINITY` (from `compute_base_level`), so it
is taken as `WithBot ℝ` here; the `is_finite` branch replacing a non-finite
value by `-10.0` is `WithBot.unbot' (-10)`.  `clamp(0.0, 1.0)` is
`min (max · 0) 1`. -/
noncomputable def combine_activations (base_level : WithBot ℝ)
    (probe_activation spreading_activation emotional_weight : ℝ) : ActivationBreakdown :=
  let emotional_multiplier := 1 + (emotional_weight - 1 / 2)
  let effective_base := base_level.unbot' (-10)
  let recency_boost := min (max ((effective_base + 10) / 10) 0) 1
  let modulated_probe := probe_activation * emotional_multiplier
  let probe_with_recency := modulated_probe * (1 + recency_boost)
  { probe_activation := modulated_probe
    base_level := effective_base
    spreading := spreading_activation
    emotional_weight := emotional_weight
    total := probe_with_recency + spreading_activation }

/-- `retrieval_probability` (`activation.rs` lines 280–287):
`1 / (1 + exp((τ - A) / s))`. -/
noncomputable def retrieval_probability (total_activation activation_threshold
    noise_parameter : ℝ) : ℝ :=
  let exponent := (activation_threshold - total_activation) / noise_parameter
  1 / (1 + Real.exp exponent)

/-- `WorkingMemoryConfig` (`activation.rs`). -/
structure WorkingMemoryConfig where
  decay_ms : ℝ
  max_boost : ℝ

/-- `compute_working_memory_boost` (`activation.rs` lines 348–365):
`1 + max_boost · exp(-age/τ)`, collapsing to `1` for negative age. -/
noncomputable def compute_working_memory_boost (activated_at_ms current_time_ms : ℝ)
    (config : WorkingMemoryConfig) : ℝ :=
  let age := current_time_ms - activated_at_ms
  if age < 0 then 1
  else
    let decay_factor := Real.exp (-age / config.decay_ms)
    config.max_boost * decay_factor + 1

/-- `ReconsolidationConfig` (`activation.rs`). -/
structure ReconsolidationConfig (F : Type) where
  theta_low : F
  theta_high : F
  beta : F
  strength_shift : F
  age_shift : F
  baseline_count : F
  baseline_days : F

/-- `ReconsolidationConfig::default()` (THETA_LOW = 0.10, THETA_HIGH = 0.55,
BETA_RECON = 10.0, STRENGTH_SHIFT = 0.15, AGE_SHIFT = 0.05). -/
def ReconsolidationConfig.default (F : Type) [LinearOrderedField F] :
    ReconsolidationConfig F :=
  { theta_low := 1 / 10
    theta_high := 11 / 20
    beta := 10
    strength_shift := 3 / 20
    age_shift := 1 / 20
    baseline_count := 5
    baseline_days := 1 }

/-- `compute_effective_thresholds` (`activation.rs` lines 673–693).
`x.mul_add(a, b)` is `x * a + b`; `f64::from(access_count)` is the cast from
`u32`; the final `.max(effective_low + 0.05)` enforces the gap. -/
def compute_effective_thresholds (theta_low theta_high : F) (access_count : ℕ)
    (days_since_last_access : F) (config : ReconsolidationConfig F) : F × F :=
  let age_factor := min (days_since_last_access / config.baseline_days) 5
  let effective_low := config.age_shift * age_factor + theta_low
  let use_factor := min ((access_count : F) / config.baseline_count) 3
  let effective_high₀ := -config.strength_shift * use_factor + theta_high
  let effective_high := max effective_high₀ (effective_low + 5 / 100)
  (effective_low, effective_high)

/-! ## Location familiarity (`src/location.rs`) -/

/-- `LocationConfig` (`location.rs`). -/
structure LocationConfig (F : Type) where
  familiarity_k : F
  stale_threshold_days : ℕ
  max_decay_rate : F
  decay_dampening : F
  base_floor : F
  sticky_bonus : F
  well_known_threshold : F
  task_same_activity_multiplier : F
  task_diff_activity_multiplier : F
  time_same_activity_multiplier : F
  time_diff_activity_multiplier : F
  backward_strength_factor : F

/-- `compute_decayed_familiarity` (`location.rs` lines 238–279).  The Rust
guard `!last_accessed_ms.is_finite() || last_accessed_ms < 0.0` reduces to the
negativity test in the real-number model (non-finite `f64` values do not
exist here).  `x.mul_add(a, b)` is `x * a + b`; `decayed.max(floor)` is
`max decayed floor`. -/
def compute_decayed_familiarity (current_familiarity last_accessed_ms
    current_time_ms : F) (is_pinned : Bool) (config : LocationConfig F) : F :=
  if is_pinned then current_familiarity
  else if last_accessed_ms < 0 then current_familiarity
  else
    let ms_per_day : F := 24 * 60 * 60 * 1000
    let days_since_access := (current_time_ms - last_accessed_ms) / ms_per_day
    if days_since_access < (config.stale_threshold_days : F) then current_familiarity
    else
      let decay_rate :=
        config.max_decay_rate * (current_familiarity * -config.decay_dampening + 1)
      let floor :=
        if 1 / 2 < current_familiarity then
          config.sticky_bonus * (current_familiarity - 1 / 2) + config.base_floor
        else config.base_floor
      let decayed := current_familiarity * (1 - decay_rate)
      max decayed floor

/-! ## Visual memory (`src/visual.rs`) -/

/-- `VisualConfig` (`visual.rs`). -/
structure VisualConfig (F : Type) where
  tagging_significance_threshold : F
  emotional_retention_threshold : F
  emotional_decay_reduction : F
  base_decay_rate : F
  stale_threshold_days : ℕ
  significance_floor : F
  pruning_threshold : F
  pruning_stale_days : ℕ
  preserve_keyframes : Bool

/-- The fields of `VisualMemory` read by `compute_pruning_candidates`
(`visual.rs`): the description strings, embedding, emotional context, source
and tag metadata are not consulted by the operations modelled here and are
omitted. -/
structure VisualMemory (F : Type) where
  last_accessed_ms : F
  significance : F
  frame_number : Option ℕ
  is_pinned : Bool

/-- `PruningReason` (`visual.rs`). -/
inductive PruningReason where
  | LowSignificance
  | Stale
  | Duplicate
  | LowQuality
deriving DecidableEq

/-- `PruningCandidate` (`visual.rs`). -/
structure PruningCandidate (F : Type) where
  index : ℕ
  significance : F
  days_since_access : F
  reason : PruningReason
  score : F

/-- `compute_pruning_candidates` (`visual.rs` lines 695–756): pinned memories
and (when configured) keyframes are never candidates; stale memories come
first, then low-significance ones; the result is sorted by score descending
(`sort_by` is stable, modelled by the stable `insertionSort`). -/
def compute_pruning_candidates (memories : List (VisualMemory F))
    (current_time_ms : F) (config : VisualConfig F) : List (PruningCandidate F) :=
  let ms_per_day : F := 24 * 60 * 60 * 1000
  let candidates := memories.enum.filterMap fun p =>
    let i := p.1
    let mem := p.2
    if mem.is_pinned then none
    else if config.preserve_keyframes && mem.frame_number == some 0 then none
    else
      let days_since_access := (current_time_ms - mem.last_accessed_ms) / ms_per_day
      if (config.pruning_stale_days : F) < days_since_access then
        some { index := i
               significance := mem.significance
               days_since_access := days_since_access
               reason := PruningReason.Stale
               score := days_since_access / (config.pruning_stale_days : F) *
                 (1 - mem.significance) }
      else if mem.significance < config.pruning_threshold then
        some { index := i
               significance := mem.significance
               days_since_access := days_since_access
               reason := PruningReason.LowSignificance
               score := (config.pruning_threshold - mem.significance) *
                 min (days_since_access / (config.stale_threshold_days : F)) 1 }
      else none
  candidates.insertionSort fun a b => b.score ≤ a.score

/-! ## General retrieval pipeline (`src/retrieval.rs`) -/

/-- `RetrievalInput` (`retrieval.rs`). -/
structure RetrievalInput where
  probe_embedding : List ℝ
  memory_embeddings : List (List ℝ)
  access_histories_ms : List (List ℝ)
  emotional_weights : List ℝ
  decay_rates : List ℝ
  working_memory_boosts : List ℝ
  associations : List (Association ℝ)
  current_time_ms : ℝ

/-- `RetrievalConfig` (`retrieval.rs`). -/
structure RetrievalConfig where
  decay_rate : ℝ
  activation_threshold : ℝ
  noise_parameter : ℝ
  spreading_depth : ℕ
  spreading_decay : ℝ
  min_probability : ℝ
  max_results : ℕ
  bidirectional : Bool

/-- `RetrievalConfig::default()`. -/
noncomputable def RetrievalConfig.default : RetrievalConfig :=
  { decay_rate := 1 / 2
    activation_threshold := 3 / 10
    noise_parameter := 1 / 10
    spreading_depth := 3
    spreading_decay := 7 / 10
    min_probability := 1 / 10
    max_results := 10
    bidirectional := true }

/-- `RetrievalCandidate` (`retrieval.rs`). -/
structure RetrievalCandidate where
  index : ℕ
  base_level : ℝ
  probe_activation : ℝ
  spreading : ℝ
  emotional_weight : ℝ
  total_activation : ℝ
  probability : ℝ

/-- Stage 1 of `retrieve`: batch cosine similarities. -/
noncomputable def similarities (input : RetrievalInput) : List ℝ :=
  cosine_similarity_batch input.probe_embedding input.memory_embeddings

/-- Stage 2 of `retrieve` (`retrieval.rs` lines 122–130): the working-memory
boost is applied to each similarity before cubing, capped above at `1.0` by
`(sim * boost).min(1.0)`; a missing boost entry defaults to `1.0`
(`get(i).copied().unwrap_or(1.0)`). -/
noncomputable def boosted_similarities (input : RetrievalInput) : List ℝ :=
  (similarities input).enum.map fun p =>
    let boost := input.working_memory_boosts.getD p.1 1
    min (p.2 * boost) 1

/-- Stage 3 of `retrieve`: MINERVA-2 cube of the boosted similarities. -/
noncomputable def probe_activations (input : RetrievalInput) : List ℝ :=
  nonlinear_activation_batch (boosted_similarities input)

/-- Stage 4 of `retrieve`: base levels with per-memory decay rates
(`get(i).copied().unwrap_or(config.decay_rate)`). -/
noncomputable def base_levels (input : RetrievalInput) (config : RetrievalConfig) :
    List (WithBot ℝ) :=
  input.access_histories_ms.enum.map fun p =>
    compute_base_level p.2 input.current_time_ms (input.decay_rates.getD p.1 config.decay_rate)

/-- Stage 5 of `retrieve` (`retrieval.rs` lines 152–168): multiplicative
initial activation `probe · (1 + (e - 0.5)) · (1 + clamp((B+10)/10, 0, 1))`
with non-finite base clamped to `-10`. -/
noncomputable def initial_activations (input : RetrievalInput)
    (config : RetrievalConfig) : List ℝ :=
  (List.range input.memory_embeddings.length).map fun i =>
    let base := ((base_levels input config).getD i ⊥).unbot' (-10)
    let emotional := input.emotional_weights.getD i (1 / 2)
    let emotional_multiplier := 1 + (emotional - 1 / 2)
    let recency_boost := min (max ((base + 10) / 10) 0) 1
    (probe_activations input).getD i 0 * emotional_multiplier * (1 + recency_boost)

/-- Stage 6 of `retrieve`: seeds are the indices whose (cubed, boosted) probe
activation exceeds `0.1`, sorted by initial activation descending (stable) and
truncated to 5. -/
noncomputable def retrieval_seeds (input : RetrievalInput) (config : RetrievalConfig) :
    List (ℕ × ℝ) :=
  (((initial_activations input config).enum.filter fun p =>
      decide ((1 : ℝ) / 10 < (probe_activations input).getD p.1 0)).insertionSort
    fun p q => q.2 ≤ p.2).take 5

/-- Stage 7 of `retrieve` (`retrieval.rs` lines 182–206): spreading from the
seeds; with no seeds or zero depth the spreading vector is all zeros.  The
seed indices come from `List.range n`, so the `none` (panic) branch of
`spread_activation` is unreachable and is mapped to the empty list. -/
noncomputable def spreading_activations (input : RetrievalInput)
    (config : RetrievalConfig) : List ℝ :=
  let n := input.memory_embeddings.length
  let seeds := retrieval_seeds input config
  if seeds ≠ [] ∧ 0 < config.spreading_depth then
    match spread_activation n input.associations (seeds.map Prod.fst)
        (seeds.map Prod.snd)
        { decay_per_hop := config.spreading_decay
          minimum_activation := 1 / 100
          max_nodes := 1000
          bidirectional := config.bidirectional } config.spreading_depth with
    | some r => r.activations
    | none => []
  else List.replicate n 0

/-- Stage 8 of `retrieve` (`retrieval.rs` lines 209–244): per-index
combination, retrieval probability, and the `min_probability` filter. -/
noncomputable def retrieval_candidates (input : RetrievalInput)
    (config : RetrievalConfig) : List RetrievalCandidate :=
  (List.range input.memory_embeddings.length).filterMap fun i =>
    let base_level := (base_levels input config).getD i ⊥
    let probe_activation := (probe_activations input).getD i 0
    let spreading := (spreading_activations input config).getD i 0
    let emotional_weight := input.emotional_weights.getD i (1 / 2)
    let breakdown := combine_activations base_level probe_activation spreading emotional_weight
    let probability := retrieval_probability breakdown.total config.activation_threshold
      config.noise_parameter
    if probability < config.min_probability then none
    else
      some { index := i
             base_level := breakdown.base_level
             probe_activation := breakdown.probe_activation
             spreading := breakdown.spreading
             emotional_weight := breakdown.emotional_weight
             total_activation := breakdown.total
             probability := probability }

/-- `retrieve` (`retrieval.rs` lines 109–255): empty corpus short-circuit,
then the staged pipeline, sorted by total activation descending (`sort_by`
is stable) and truncated to `max_results`. -/
noncomputable def retrieve (input : RetrievalInput) (config : RetrievalConfig) :
    List RetrievalCandidate :=
  if input.memory_embeddings.length = 0 then []
  else
    ((retrieval_candidates input config).insertionSort
      fun a b => b.total_activation ≤ a.total_activation).take config.max_results

/-! ## Visual retrieval pipeline (`src/visual.rs`) -/

/-- `VisualRetrievalInput` (`visual.rs`). -/
structure VisualRetrievalInput where
  probe_embedding : List ℝ
  memory_embeddings : List (List ℝ)
  access_histories_ms : List (List ℝ)
  emotional_weights : List ℝ
  significance_scores : List ℝ
  associations : List (Association ℝ)
  current_time_ms : ℝ

/-- `VisualRetrievalConfig` (`visual.rs`). -/
structure VisualRetrievalConfig where
  decay_rate : ℝ
  activation_threshold : ℝ
  noise_parameter : ℝ
  spreading_depth : ℕ
  spreading_decay : ℝ
  min_probability : ℝ
  max_results : ℕ
  bidirectional : Bool
  emotional_boost : ℝ
  significance_boost : ℝ

/-- `VisualRetrievalCandidate` (`visual.rs`). -/
structure VisualRetrievalCandidate where
  index : ℕ
  base_level : ℝ
  probe_activation : ℝ
  spreading : ℝ
  emotional_weight : ℝ
  significance_boost : ℝ
  total_activation : ℝ
  probability : ℝ
  latency_ms : ℝ

/-- Visual stage 1–2: cosine similarities, cubed directly (no WM boost in the
visual pipeline). -/
noncomputable def visual_probe_activations (input : VisualRetrievalInput) : List ℝ :=
  nonlinear_activation_batch
    (cosine_similarity_batch input.probe_embedding input.memory_embeddings)

/-- Visual stage 3: base levels with the single configured decay rate. -/
noncomputable def visual_base_levels (input : VisualRetrievalInput)
    (config : VisualRetrievalConfig) : List (WithBot ℝ) :=
  input.access_histories_ms.map fun history =>
    compute_base_level history input.current_time_ms config.decay_rate

/-- Visual stage 4 (`visual.rs` lines 357–368): additive initial activation
`(B + probe) · (1 + (e - 0.5))` with non-finite base clamped to `-10`. -/
noncomputable def visual_initial_activations (input : VisualRetrievalInput)
    (config : VisualRetrievalConfig) : List ℝ :=
  (List.range input.memory_embeddings.length).map fun i =>
    let base := ((visual_base_levels input config).getD i ⊥).unbot' (-10)
    let emotional := input.emotional_weights.getD i (1 / 2)
    let emotional_multiplier := 1 + (emotional - 1 / 2)
    (base + (visual_probe_activations input).getD i 0) * emotional_multiplier

/-- Visual stage 5: seeds are the strictly positive initial activations,
sorted descending (stable) and truncated to 5. -/
noncomputable def visual_seeds (input : VisualRetrievalInput)
    (config : VisualRetrievalConfig) : List (ℕ × ℝ) :=
  (((visual_initial_activations input config).enum.filter fun p =>
      decide ((0 : ℝ) < p.2)).insertionSort fun p q => q.2 ≤ p.2).take 5

/-- Visual stage 6: spreading (as in the general pipeline). -/
noncomputable def visual_spreading_activations (input : VisualRetrievalInput)
    (config : VisualRetrievalConfig) : List ℝ :=
  let n := input.memory_embeddings.length
  let seeds := visual_seeds input config
  if seeds ≠ [] ∧ 0 < config.spreading_depth then
    match spread_activation n input.associations (seeds.map Prod.fst)
        (seeds.map Prod.snd)
        { decay_per_hop := config.spreading_decay
          minimum_activation := 1 / 100
          max_nodes := 1000
          bidirectional := config.bidirectional } config.spreading_depth with
    | some r => r.activations
    | none => []
  else List.replicate n 0

/-- The emotional overhang boost of the visual pipeline (`visual.rs` lines
422–426): `(emotional_weight - 0.7) * config.emotional_boost` when the
emotional weight exceeds `0.7`, otherwise `0`. -/
noncomputable def emotional_overhang_boost (emotional_weight : ℝ)
    (config : VisualRetrievalConfig) : ℝ :=
  if 7 / 10 < emotional_weight then (emotional_weight - 7 / 10) * config.emotional_boost
  else 0

/-- Visual stage 7 (`visual.rs` lines 408–458): the significance and
emotional-overhang boosts are added to the standard combined total *before*
the logistic; the probability is the logistic of the boosted total and the
latency is `1000 · exp(-boosted_total)`. -/
noncomputable def visual_candidates (input : VisualRetrievalInput)
    (config : VisualRetrievalConfig) : List VisualRetrievalCandidate :=
  (List.range input.memory_embeddings.length).filterMap fun i =>
    let base_level := (visual_base_levels input config).getD i ⊥
    let probe_activation := (visual_probe_activations input).getD i 0
    let spreading := (visual_spreading_activations input config).getD i 0
    let emotional_weight := input.emotional_weights.getD i (1 / 2)
    let significance := input.significance_scores.getD i (1 / 2)
    let significance_boost := significance * config.significance_boost
    let emotional_boost := emotional_overhang_boost emotional_weight config
    let breakdown := combine_activations base_level probe_activation spreading emotional_weight
    let boosted_total := breakdown.total + significance_boost + emotional_boost
    let probability := retrieval_probability boosted_total config.activation_threshold
      config.noise_parameter
    if probability < config.min_probability then none
    else
      let latency_ms := 1000 * Real.exp (-boosted_total)
      some { index := i
             base_level := breakdown.base_level
             probe_activation := breakdown.probe_activation
             spreading := breakdown.spreading
             emotional_weight := breakdown.emotional_weight
             significance_boost := significance_boost + emotional_boost
             total_activation := boosted_total
             probability := probability
             latency_ms := latency_ms }

/-- `retrieve_visual` (`visual.rs` lines 334–469). -/
noncomputable def retrieve_visual (input : VisualRetrievalInput)
    (config : VisualRetrievalConfig) : List VisualRetrievalCandidate :=
  if input.memory_embeddings.length = 0 then []
  else
    ((visual_candidates input config).insertionSort
      fun a b => b.total_activation ≤ a.total_activation).take config.max_results

/-! ### Concrete sample inputs used to witness the pipeline theorems -/

/-- A one-trace retrieval input: probe `[1]`, trace `[1]`, empty access
history, neutral emotion, no boost, no edges. -/
noncomputable def sampleRetrievalInput : RetrievalInput :=
  { probe_embedding := [1]
    memory_embeddings := [[1]]
    access_histories_ms := [[]]
    emotional_weights := [1 / 2]
    decay_rates := [1 / 2]
    working_memory_boosts := [1]
    associations := []
    current_time_ms := 0 }

/-- A one-trace visual retrieval input: probe `[1]`, trace `[1]`, empty
access history, neutral emotion, neutral significance, no edges. -/
noncomputable def sampleVisualInput : VisualRetrievalInput :=
  { probe_embedding := [1]
    memory_embeddings := [[1]]
    access_histories_ms := [[]]
    emotional_weights := [1 / 2]
    significance_scores := [1 / 2]
    associations := []
    current_time_ms := 0 }

/-- A visual configuration with zero spreading depth and no probability
floor (otherwise the defaults). -/
noncomputable def sampleVisualConfig : VisualRetrievalConfig :=
  { decay_rate := 1 / 2
    activation_threshold := 3 / 10
    noise_parameter := 1 / 10
    spreading_depth := 0
    spreading_decay := 7 / 10
    min_probability := 0
    max_results := 10
    bidirectional := true
    emotional_boost := 3 / 10
    significance_boost := 1 / 5 }

/-- The candidate `retrieve_visual` returns on `sampleVisualInput` with
`sampleVisualConfig`: similarity 1 cubes to 1, the empty history gives
effective base `-10` (zero recency boost), the significance boost is
`(1/2) · (1/5) = 1/10` and the emotional overhang boost is `0`, so the
boosted total is `11/10`. -/
noncomputable def sampleVisualCandidate : VisualRetrievalCandidate :=
  { index := 0
    base_level := -10
    probe_activation := 1
    spreading := 0
    emotional_weight := 1 / 2
    significance_boost := 1 / 10
    total_activation := 11 / 10
    probability := retrieval_probability (11 / 10) (3 / 10) (1 / 10)
    latency_ms := 1000 * Real.exp (-(11 / 10)) }

/-! ### Claims C1 and C10: concrete runs of `spread_activation` -/

/-- C1 (evaluation at the failing input): the spec's failure semantics say
out-of-range seed indices are skipped silently and `spread_activation` never
panics, and the initialisation loop indeed guards `idx < num_nodes` — but the
initial frontier is built from `seed_indices` unfiltered, so with
`num_nodes = 1`, no edges, seed list `[5]` and depth `1`, the frontier loop
evaluates `activations[5]` and panics (index out of bounds), modelled here by
the `none` result. -/
theorem c1_spread_activation_oob_seed :
    spread_activation (F := ℚ) 1 [] [5] [1] (SpreadingConfig.default ℚ) 1 = none := by
  norm_num [spread_activation, spreadLoop, spreadFrontier, spreadSource, spreadEdges,
    initSeeds, build_adjacency, SpreadingConfig.default, List.filter, List.get?, List.replicate]

/-- C10: the visited set only prevents re-enqueuing; an already-visited node —
here the seed `0`, which is the target of the edge `1 → 0` — keeps receiving
activation.  In the run below (chain `0 → 1`, `1 → 0`, `1 → 2`, seed `0` with
activation `1`, `γ = 7/10`, unidirectional, depth `2`) the depth-2 frontier
`[1]` sends `(7/10)/2 · 1 · 7/10 = 49/200` back to the seed, whose final
activation `249/200` strictly exceeds its seed activation `1`. -/
theorem c10_visited_seed_still_receives :
    spread_activation (F := ℚ) 3
        [⟨0, 1, 1, 1 / 2⟩, ⟨1, 0, 1, 1 / 2⟩, ⟨1, 2, 1, 1 / 2⟩] [0] [1]
        { decay_per_hop := 7 / 10, minimum_activation := 1 / 100, max_nodes := 100,
          bidirectional := false } 2 =
      some { activations := [249 / 200, 7 / 10, 49 / 200], visited_by_depth := [[0], [1], [2]] } ∧
    (⟨1, 0, 1, 1 / 2⟩ : Association ℚ) ∈
      [⟨0, 1, 1, 1 / 2⟩, ⟨1, 0, 1, 1 / 2⟩, (⟨1, 2, 1, 1 / 2⟩ : Association ℚ)] ∧
    (1 : ℚ) < 249 / 200 := by
  refine ⟨?_, by norm_num, by norm_num⟩
  norm_num [spread_activation, spreadLoop, spreadFrontier, spreadSource, spreadEdges,
    initSeeds, build_adjacency, List.filter, List.get?, List.replicate, List.set, List.zipWith]

/-! ### List helper lemmas -/

theorem getD_zero_nonneg {l : List F} (h : ∀ x ∈ l, 0 ≤ x) (i : ℕ) : 0 ≤ l.getD i 0 := by
  by_cases hi : i < l.length
  · rw [List.getD_eq_getElem _ _ hi]
    exact h _ (List.getElem_mem hi)
  · rw [List.getD_eq_default _ _ (le_of_not_lt hi)]

theorem getD_set_self_of_lt {l : List F} {i : ℕ} (h : i < l.length) (v : F) :
    (l.set i v).getD i 0 = v := by
  rw [List.getD_eq_getElem _ _ (by simpa using h)]
  exact List.getElem_set_self (by simpa using h)

theorem getD_set_ne {l : List F} {i j : ℕ} (h : i ≠ j) (v d : F) :
    (l.set i v).getD j d = l.getD j d := by
  simp [List.getD_eq_getD_get?, List.get?_eq_getElem?, List.getElem?_set_ne h]

theorem sum_set_add_of_lt {l : List F} {t : ℕ} (h : t < l.length) (a : F) :
    (l.set t (l.getD t 0 + a)).sum = l.sum + a := by
  induction l generalizing t with
  | nil => simp at h
  | cons x xs ih =>
    cases t with
    | zero => simp [List.getD_cons_zero]; ring
    | succ t =>
      simp only [List.set_cons_succ, List.sum_cons, List.getD_cons_succ]
      rw [ih (by simpa using h)]
      ring

theorem sum_set_add_le {l : List F} (t : ℕ) {a : F} (ha : 0 ≤ a) :
    (l.set t (l.getD t 0 + a)).sum ≤ l.sum + a := by
  by_cases ht : t < l.length
  · exact (sum_set_add_of_lt ht a).le
  · rw [List.set_eq_of_length_le (le_of_not_lt ht)]
    linarith

theorem sum_set_zero_add_getD {l : List F} {t : ℕ} (h : t < l.length) :
    (l.set t 0).sum + l.getD t 0 = l.sum := by
  induction l generalizing t with
  | nil => simp at h
  | cons x xs ih =>
    cases t with
    | zero => simp [List.getD_cons_zero]; ring
    | succ t =>
      simp only [List.set_cons_succ, List.sum_cons, List.getD_cons_succ]
      rw [← ih (by simpa using h)]
      ring

/-- The sum of the entries of a nonnegative list over a duplicate-free index
list is at most the sum of the whole list. -/
theorem sum_getD_nodup_le {idxs : List ℕ} (hnd : idxs.Nodup) :
    ∀ {l : List F}, (∀ x ∈ l, 0 ≤ x) →
      (idxs.map fun j => l.getD j 0).sum ≤ l.sum := by
  induction idxs with
  | nil => intro l h; simpa using List.sum_nonneg h
  | cons j rest ih =>
    intro l h
    have hjrest : j ∉ rest := (List.nodup_cons.mp hnd).1
    have hrest : rest.Nodup := (List.nodup_cons.mp hnd).2
    by_cases hj : j < l.length
    · have hset : ∀ x ∈ l.set j 0, 0 ≤ x := by
        intro x hx
        rcases List.mem_or_eq_of_mem_set hx with hx' | hx'
        · exact h x hx'
        · simp [hx']
      have hrec := ih hrest hset
      have hmap : (rest.map fun i => (l.set j 0).getD i 0) = rest.map fun i => l.getD i 0 := by
        apply List.map_congr_left
        intro i hi
        exact getD_set_ne (fun hji => hjrest (by rwa [hji])) 0 0
      rw [hmap] at hrec
      have := sum_set_zero_add_getD (l := l) hj
      simp only [List.map_cons, List.sum_cons]
      linarith
    · rw [List.map_cons, List.sum_cons, List.getD_eq_default _ _ (le_of_not_lt hj), zero_add]
      exact ih hrest h

theorem getD_zipWith_add {a b : List F} (h : a.length = b.length) (j : ℕ) :
    (List.zipWith (· + ·) a b).getD j 0 = a.getD j 0 + b.getD j 0 := by
  induction a generalizing b j with
  | nil =>
    have : b = [] := List.length_eq_zero.mp h.symm
    simp [this]
  | cons x xs ih =>
    cases b with
    | nil => simp at h
    | cons y ys =>
      cases j with
      | zero => simp [List.getD_cons_zero]
      | succ j => simpa [List.getD_cons_succ] using ih (by simpa using h) j

theorem zipWith_add_nonneg {a b : List F} (ha : ∀ x ∈ a, 0 ≤ x) (hb : ∀ x ∈ b, 0 ≤ x) :
    ∀ x ∈ List.zipWith (· + ·) a b, 0 ≤ x := by
  induction a generalizing b with
  | nil => simp
  | cons x xs ih =>
    cases b with
    | nil => simp
    | cons y ys =>
      intro z hz
      rcases List.mem_cons.mp hz with hz' | hz'
      · have hx := ha x (List.mem_cons_self _ _)
        have hy := hb y (List.mem_cons_self _ _)
        simpa [hz'] using add_nonneg hx hy
      · exact ih (fun u hu => ha u (List.mem_cons_of_mem _ hu))
          (fun u hu => hb u (List.mem_cons_of_mem _ hu)) z hz'

theorem getD_replicate_zero (k j : ℕ) : (List.replicate k (0 : F)).getD j 0 = 0 := by
  by_cases hj : j < k
  · rw [List.getD_eq_getElem _ _ (by simpa using hj)]
    simp
  · rw [List.getD_eq_default]
    simpa using le_of_not_lt hj

/-! ### Invariant preservation through the spreading loop -/

theorem spreadEdges_hopInv {n : ℕ} {V₀ : List ℕ} {cfg : SpreadingConfig F}
    {sa fan att : F} (hsa : 0 ≤ sa) (hfan : 0 < fan) (hγ : 0 ≤ cfg.decay_per_hop)
    (hatt : 0 ≤ att) :
    ∀ (edges : List (ℕ × F)) (st : HopState F),
      (∀ p ∈ edges, 0 ≤ p.2 ∧ p.1 < n) → HopInv n V₀ st →
      HopInv n V₀ (spreadEdges cfg sa fan att edges st)
  | [], st, _, hst => hst
  | (t, w) :: rest, st, hedges, hst => by
    have hw : 0 ≤ w ∧ t < n := hedges (t, w) (List.mem_cons_self _ _)
    have hamount : 0 ≤ sa / fan * w * cfg.decay_per_hop * att :=
      mul_nonneg (mul_nonneg (mul_nonneg (div_nonneg hsa hfan.le) hw.1) hγ) hatt
    rw [spreadEdges]
    by_cases hcap : cfg.max_nodes ≤ st.total_visited
    · rw [if_pos hcap]; exact hst
    · rw [if_neg hcap]
      refine spreadEdges_hopInv hsa hfan hγ hatt rest _
        (fun p hp => hedges p (List.mem_cons_of_mem _ hp)) ?_
      have hlen₁ : (st.next_activations.set t
          (st.next_activations.getD t 0 + sa / fan * w * cfg.decay_per_hop * att)).length = n := by
        rw [List.length_set]; exact hst.len
      have hnonneg₁ : ∀ x ∈ st.next_activations.set t
          (st.next_activations.getD t 0 + sa / fan * w * cfg.decay_per_hop * att), 0 ≤ x := by
        intro x hx
        rcases List.mem_or_eq_of_mem_set hx with hx' | hx'
        · exact hst.nonneg x hx'
        · rw [hx']
          exact add_nonneg (getD_zero_nonneg hst.nonneg t) hamount
      by_cases hvis : t ∈ st.visited
      · rw [if_pos hvis]
        exact
          { len := hlen₁
            nonneg := hnonneg₁
            zero_unvisited := fun j hj => by
              rw [getD_set_ne (fun h : t = j => hj (h ▸ hvis)) _ _]
              exact hst.zero_unvisited j hj
            visited_mono := hst.visited_mono
            frontier_new := hst.frontier_new
            frontier_visited := hst.frontier_visited
            frontier_nodup := hst.frontier_nodup
            frontier_lt := hst.frontier_lt }
      · rw [if_neg hvis]
        exact
          { len := hlen₁
            nonneg := hnonneg₁
            zero_unvisited := fun j hj => by
              have hjne : j ≠ t := fun h => hj (h ▸ List.mem_cons_self _ _)
              have hjold : j ∉ st.visited := fun h => hj (List.mem_cons_of_mem _ h)
              rw [getD_set_ne (Ne.symm hjne) _ _]
              exact hst.zero_unvisited j hjold
            visited_mono := fun j hj => List.mem_cons_of_mem _ (hst.visited_mono j hj)
            frontier_new := by
              intro j hj
              rcases List.mem_append.mp hj with hj' | hj'
              · exact hst.frontier_new j hj'
              · have : j = t := by simpa using hj'
                rw [this]
                exact fun h => hvis (hst.visited_mono t h)
            frontier_visited := by
              intro j hj
              rcases List.mem_append.mp hj with hj' | hj'
              · exact List.mem_cons_of_mem _ (hst.frontier_visited j hj')
              · have : j = t := by simpa using hj'
                rw [this]
                exact List.mem_cons_self _ _
            frontier_nodup := by
              rw [List.nodup_append]
              refine ⟨hst.frontier_nodup, List.nodup_singleton _, ?_⟩
              intro j hj hj'
              have : j = t := by simpa using hj'
              exact hvis (this ▸ hst.frontier_visited j hj)
            frontier_lt := by
              intro j hj
              rcases List.mem_append.mp hj with hj' | hj'
              · exact hst.frontier_lt j hj'
              · have : j = t := by simpa using hj'
                rw [this]; exact hw.2 }

theorem spreadEdges_sum_le {cfg : SpreadingConfig F} {sa fan att : F}
    (hsa : 0 ≤ sa) (hfan : 0 < fan) (hγ : 0 ≤ cfg.decay_per_hop) (hatt0 : 0 ≤ att)
    (hatt1 : att ≤ 1) :
    ∀ (edges : List (ℕ × F)) (st : HopState F),
      (∀ p ∈ edges, 0 ≤ p.2 ∧ p.2 ≤ 1) →
      (spreadEdges cfg sa fan att edges st).next_activations.sum ≤
        st.next_activations.sum + (edges.length : F) * (sa / fan * cfg.decay_per_hop)
  | [], st, _ => by simp [spreadEdges]
  | (t, w) :: rest, st, hedges => by
    have hu : 0 ≤ sa / fan * cfg.decay_per_hop := mul_nonneg (div_nonneg hsa hfan.le) hγ
    have hw : 0 ≤ w ∧ w ≤ 1 := hedges (t, w) (List.mem_cons_self _ _)
    have hamount0 : 0 ≤ sa / fan * w * cfg.decay_per_hop * att :=
      mul_nonneg (mul_nonneg (mul_nonneg (div_nonneg hsa hfan.le) hw.1) hγ) hatt0
    have hamount : sa / fan * w * cfg.decay_per_hop * att ≤ sa / fan * cfg.decay_per_hop := by
      have h1 : sa / fan * w * cfg.decay_per_hop * att =
          sa / fan * cfg.decay_per_hop * (w * att) := by ring
      rw [h1]
      exact mul_le_of_le_one_right hu (mul_le_one₀ hw.2 hatt0 hatt1)
    simp only [spreadEdges]
    by_cases hcap : cfg.max_nodes ≤ st.total_visited
    · rw [if_pos hcap]
      have : (0 : F) ≤ ((t, w) :: rest).length * (sa / fan * cfg.decay_per_hop) :=
        mul_nonneg (by positivity) hu
      linarith
    · rw [if_neg hcap]
      have hih := spreadEdges_sum_le hsa hfan hγ hatt0 hatt1 rest
      have hstep : ∀ st₂ : HopState F,
          st₂.next_activations =
            st.next_activations.set t
              (st.next_activations.getD t 0 + sa / fan * w * cfg.decay_per_hop * att) →
          (spreadEdges cfg sa fan att rest st₂).next_activations.sum ≤
            st.next_activations.sum + (((t, w) :: rest).length : F) *
              (sa / fan * cfg.decay_per_hop) := by
        intro st₂ hact
        have h2 := hih st₂ (fun p hp => hedges p (List.mem_cons_of_mem _ hp))
        rw [hact] at h2
        have h3 := sum_set_add_le (l := st.next_activations) t hamount0
        have hlen : ((((t, w) :: rest).length : ℕ) : F) = (rest.length : F) + 1 := by
          push_cast [List.length_cons]; ring
        rw [hlen]
        linarith
      by_cases hvis : t ∈ st.visited
      · rw [if_pos hvis]
        exact hstep _ rfl
      · rw [if_neg hvis]
        exact hstep _ rfl

theorem spreadSource_uni {n : ℕ} {V₀ : List ℕ} {cfg : SpreadingConfig F}
    (huni : cfg.bidirectional = false) (hγ : 0 ≤ cfg.decay_per_hop)
    {fAdj : ℕ → List (ℕ × F)} (bAdj : ℕ → List (ℕ × F))
    (hW : ∀ i, ∀ p ∈ fAdj i, (0 ≤ p.2 ∧ p.2 ≤ 1) ∧ p.1 < n)
    {activations : List F} (hact : ∀ x ∈ activations, 0 ≤ x)
    {src : ℕ} (hsrc : src < activations.length)
    {st : HopState F} (hst : HopInv n V₀ st) :
    ∃ st', spreadSource cfg fAdj bAdj activations src st = some st' ∧ HopInv n V₀ st' ∧
      st'.next_activations.sum ≤
        st.next_activations.sum + activations.getD src 0 * cfg.decay_per_hop := by
  have hget : activations.get? src = some (activations.getD src 0) := by
    simp [List.get?_eq_getElem?, List.getElem?_eq_getElem hsrc, List.getD_eq_getElem _ _ hsrc]
  have ha0 : 0 ≤ activations.getD src 0 := getD_zero_nonneg hact src
  simp only [spreadSource, hget]
  by_cases hmin : activations.getD src 0 < cfg.minimum_activation
  · rw [if_pos hmin]
    exact ⟨st, rfl, hst, by nlinarith⟩
  · rw [if_neg hmin, huni]
    simp only [Bool.false_eq_true, if_false]
    set fan : F := ((max (fAdj src).length 1 : ℕ) : F) with hfan_def
    have hfan : 0 < fan := by
      rw [hfan_def]
      exact_mod_cast Nat.lt_of_lt_of_le Nat.zero_lt_one (le_max_right _ 1)
    refine ⟨_, rfl, ?_, ?_⟩
    · exact spreadEdges_hopInv ha0 hfan hγ zero_le_one (fAdj src) st
        (fun p hp => ⟨(hW src p hp).1.1, (hW src p hp).2⟩) hst
    · have hsum := spreadEdges_sum_le ha0 hfan hγ zero_le_one le_rfl (fAdj src) st
        (fun p hp => (hW src p hp).1)
      have hlen : (((fAdj src).length : ℕ) : F) ≤ fan := by
        rw [hfan_def]
        exact_mod_cast le_max_left _ _
      have hu : 0 ≤ activations.getD src 0 / fan * cfg.decay_per_hop :=
        mul_nonneg (div_nonneg ha0 hfan.le) hγ
      have hmul : ((fAdj src).length : F) *
          (activations.getD src 0 / fan * cfg.decay_per_hop) ≤
          fan * (activations.getD src 0 / fan * cfg.decay_per_hop) :=
        mul_le_mul_of_nonneg_right hlen hu
      have hfne : fan ≠ 0 := ne_of_gt hfan
      have heq : fan * (activations.getD src 0 / fan * cfg.decay_per_hop) =
          activations.getD src 0 * cfg.decay_per_hop := by
        field_simp
      linarith

theorem spreadFrontier_uni {n : ℕ} {V₀ : List ℕ} {cfg : SpreadingConfig F}
    (huni : cfg.bidirectional = false) (hγ : 0 ≤ cfg.decay_per_hop)
    {fAdj : ℕ → List (ℕ × F)} (bAdj : ℕ → List (ℕ × F))
    (hW : ∀ i, ∀ p ∈ fAdj i, (0 ≤ p.2 ∧ p.2 ≤ 1) ∧ p.1 < n)
    {activations : List F} (hact : ∀ x ∈ activations, 0 ≤ x) :
    ∀ (sources : List ℕ) (st : HopState F),
      (∀ s ∈ sources, s < activations.length) → HopInv n V₀ st →
      ∃ st', spreadFrontier cfg fAdj bAdj activations sources st = some st' ∧
        HopInv n V₀ st' ∧
        st'.next_activations.sum ≤ st.next_activations.sum +
          (sources.map fun s => activations.getD s 0).sum * cfg.decay_per_hop
  | [], st, _, hst => ⟨st, rfl, hst, by simp [spreadFrontier]⟩
  | s :: rest, st, hs, hst => by
    obtain ⟨st₁, h1, hinv1, hsum1⟩ :=
      spreadSource_uni huni hγ bAdj hW hact (hs s (List.mem_cons_self _ _)) hst
    obtain ⟨st', h', hinv', hsum'⟩ :=
      spreadFrontier_uni huni hγ bAdj hW hact rest st₁
        (fun u hu => hs u (List.mem_cons_of_mem _ hu)) hinv1
    refine ⟨st', by simp only [spreadFrontier, h1]; exact h', hinv', ?_⟩
    have hring : (activations.getD s 0 + (rest.map fun u => activations.getD u 0).sum) *
        cfg.decay_per_hop =
        activations.getD s 0 * cfg.decay_per_hop +
          (rest.map fun u => activations.getD u 0).sum * cfg.decay_per_hop := by ring
    simp only [List.map_cons, List.sum_cons]
    linarith

theorem frontierSum_nonneg {n : ℕ} {st : SpreadState F} (hst : StateInv n st) :
    0 ≤ frontierSum st := by
  refine List.sum_nonneg ?_
  intro x hx
  obtain ⟨j, hj, rfl⟩ := List.mem_map.mp hx
  exact getD_zero_nonneg hst.nonneg j

theorem spreadLoop_layer_bound {n : ℕ} {cfg : SpreadingConfig F}
    (huni : cfg.bidirectional = false) (hγ : 0 ≤ cfg.decay_per_hop)
    {fAdj : ℕ → List (ℕ × F)} (bAdj : ℕ → List (ℕ × F))
    (hW : ∀ i, ∀ p ∈ fAdj i, (0 ≤ p.2 ∧ p.2 ≤ 1) ∧ p.1 < n) :
    ∀ (fuel : ℕ) (st : SpreadState F), StateInv n st →
      ∃ st', spreadLoop cfg fAdj bAdj fuel st = some st' ∧
        ((st'.visited_by_depth.getD (st.visited_by_depth.length - 1 + fuel) []).map
          fun j => st'.activations.getD j 0).sum ≤
          frontierSum st * cfg.decay_per_hop ^ fuel
  | 0, st, hst => by
    refine ⟨st, rfl, ?_⟩
    rw [Nat.add_zero, hst.vbd_last, pow_zero, mul_one]
    exact le_rfl
  | fuel + 1, st, hst => by
    have hF0 : 0 ≤ frontierSum st := frontierSum_nonneg hst
    have hpow : (0 : F) ≤ frontierSum st * cfg.decay_per_hop ^ (fuel + 1) :=
      mul_nonneg hF0 (pow_nonneg hγ _)
    have hlen1 : 1 ≤ st.visited_by_depth.length :=
      List.length_pos.mpr hst.vbd_ne
    have hidx : st.visited_by_depth.length - 1 + (fuel + 1) =
        st.visited_by_depth.length + fuel := by omega
    simp only [spreadLoop]
    by_cases hcap : cfg.max_nodes ≤ st.total_visited
    · rw [if_pos hcap]
      refine ⟨st, rfl, ?_⟩
      rw [hidx, List.getD_eq_default _ _ (Nat.le_add_right _ _)]
      simpa using hpow
    · rw [if_neg hcap]
      have hinv₀ : HopInv n st.visited
          ({ next_activations := List.replicate st.activations.length 0
             visited := st.visited
             next_frontier := []
             total_visited := st.total_visited } : HopState F) :=
        { len := by rw [List.length_replicate]; exact hst.len
          nonneg := fun x hx => by rw [List.eq_of_mem_replicate hx]
          zero_unvisited := fun j _ => getD_replicate_zero _ j
          visited_mono := fun j hj => hj
          frontier_new := by simp
          frontier_visited := by simp
          frontier_nodup := List.nodup_nil
          frontier_lt := by simp }
      obtain ⟨hop, hfr, hinvh, hsumh⟩ :=
        spreadFrontier_uni huni hγ bAdj hW hst.nonneg st.frontier _
          (fun s hs => by rw [hst.len]; exact hst.frontier_lt s hs) hinv₀
      simp only [hfr]
      by_cases hnf : hop.next_frontier = []
      · rw [if_pos hnf]
        refine ⟨st, rfl, ?_⟩
        rw [hidx, List.getD_eq_default _ _ (Nat.le_add_right _ _)]
        simpa using hpow
      · rw [if_neg hnf]
        have hlenact : st.activations.length = hop.next_activations.length :=
          hst.len.trans hinvh.len.symm
        have hinv₂ : StateInv n
            ({ activations := List.zipWith (· + ·) st.activations hop.next_activations
               visited := hop.visited
               visited_by_depth := st.visited_by_depth ++ [hop.next_frontier]
               frontier := hop.next_frontier
               total_visited := hop.total_visited } : SpreadState F) :=
          { len := by
              rw [List.length_zipWith, hst.len, hinvh.len]
              exact min_self n
            nonneg := zipWith_add_nonneg hst.nonneg hinvh.nonneg
            zero_unvisited := fun j hj => by
              have hj₀ : j ∉ st.visited := fun h => hj (hinvh.visited_mono j h)
              rw [getD_zipWith_add hlenact, hst.zero_unvisited j hj₀,
                hinvh.zero_unvisited j hj, add_zero]
            frontier_nodup := hinvh.frontier_nodup
            frontier_lt := hinvh.frontier_lt
            frontier_visited := hinvh.frontier_visited
            vbd_ne := by simp
            vbd_last := by
              have : (st.visited_by_depth ++ [hop.next_frontier]).length =
                  st.visited_by_depth.length + 1 := by simp
              rw [this, Nat.add_sub_cancel,
                List.getD_append_right _ _ _ _ le_rfl, Nat.sub_self]
              rfl }
        obtain ⟨st', hloop, hbound⟩ :=
          spreadLoop_layer_bound huni hγ bAdj hW fuel _ hinv₂
        refine ⟨st', hloop, ?_⟩
        have hF₂ : frontierSum
            ({ activations := List.zipWith (· + ·) st.activations hop.next_activations
               visited := hop.visited
               visited_by_depth := st.visited_by_depth ++ [hop.next_frontier]
               frontier := hop.next_frontier
               total_visited := hop.total_visited } : SpreadState F) ≤
            frontierSum st * cfg.decay_per_hop := by
          have hmap : (hop.next_frontier.map fun j =>
              (List.zipWith (· + ·) st.activations hop.next_activations).getD j 0) =
              hop.next_frontier.map fun j => hop.next_activations.getD j 0 := by
            apply List.map_congr_left
            intro j hj
            rw [getD_zipWith_add hlenact,
              hst.zero_unvisited j (hinvh.frontier_new j hj), zero_add]
          have hsub : (hop.next_frontier.map fun j => hop.next_activations.getD j 0).sum ≤
              hop.next_activations.sum :=
            sum_getD_nodup_le hinvh.frontier_nodup hinvh.nonneg
          have hrep : (List.replicate st.activations.length (0 : F)).sum = 0 := by simp
          unfold frontierSum
          rw [hmap]
          simp only [hrep] at hsumh
          calc (hop.next_frontier.map fun j => hop.next_activations.getD j 0).sum
              ≤ hop.next_activations.sum := hsub
            _ ≤ 0 + (st.frontier.map fun s => st.activations.getD s 0).sum *
                  cfg.decay_per_hop := hsumh
            _ = frontierSum st * cfg.decay_per_hop := by
                rw [zero_add]; rfl
        have hidx₂ : (st.visited_by_depth ++ [hop.next_frontier]).length - 1 + fuel =
            st.visited_by_depth.length + fuel := by
          simp
        rw [hidx₂] at hbound
        rw [hidx]
        calc ((st'.visited_by_depth.getD (st.visited_by_depth.length + fuel) []).map
              fun j => st'.activations.getD j 0).sum
            ≤ _ * cfg.decay_per_hop ^ fuel := hbound
          _ ≤ frontierSum st * cfg.decay_per_hop * cfg.decay_per_hop ^ fuel :=
              mul_le_mul_of_nonneg_right hF₂ (pow_nonneg hγ fuel)
          _ = frontierSum st * cfg.decay_per_hop ^ (fuel + 1) := by ring

theorem initSeeds_length (n : ℕ) :
    ∀ (base : List F) (idxs : List ℕ) (acts : List F),
      (initSeeds n base idxs acts).length = base.length
  | base, [], acts => rfl
  | base, idx :: rest, acts => by
    simp only [initSeeds]
    rw [initSeeds_length]
    by_cases h : idx < n
    · rw [if_pos h, List.length_set]
    · rw [if_neg h]

theorem initSeeds_nonneg (n : ℕ) :
    ∀ (base : List F) (idxs : List ℕ) (acts : List F),
      (∀ x ∈ base, 0 ≤ x) → (∀ x ∈ acts, 0 ≤ x) →
      ∀ x ∈ initSeeds n base idxs acts, 0 ≤ x
  | base, [], acts, hb, ha => hb
  | base, idx :: rest, acts, hb, ha => by
    simp only [initSeeds]
    refine initSeeds_nonneg n _ rest acts.tail ?_ ?_
    · intro x hx
      by_cases h : idx < n
      · rw [if_pos h] at hx
        rcases List.mem_or_eq_of_mem_set hx with h' | h'
        · exact hb x h'
        · rw [h']
          cases acts with
          | nil => exact zero_le_one
          | cons a as => exact ha a (List.mem_cons_self _ _)
      · rw [if_neg h] at hx
        exact hb x hx
    · intro x hx
      exact ha x (List.mem_of_mem_tail hx)

theorem initSeeds_getD_not_mem (n : ℕ) :
    ∀ (base : List F) (idxs : List ℕ) (acts : List F) (j : ℕ), j ∉ idxs →
      (initSeeds n base idxs acts).getD j 0 = base.getD j 0
  | base, [], acts, j, hj => rfl
  | base, idx :: rest, acts, j, hj => by
    simp only [initSeeds]
    rw [initSeeds_getD_not_mem n _ rest acts.tail j
      (fun h => hj (List.mem_cons_of_mem _ h))]
    by_cases h : idx < n
    · rw [if_pos h]
      exact getD_set_ne (fun he : idx = j => hj (he ▸ List.mem_cons_self idx rest)) _ _
    · rw [if_neg h]

theorem initSeeds_frontier_sum (n : ℕ) :
    ∀ (idxs : List ℕ) (acts : List F) (base : List F),
      idxs.Nodup → (∀ i ∈ idxs, i < n) → idxs.length = acts.length → base.length = n →
      (idxs.map fun j => (initSeeds n base idxs acts).getD j 0).sum = acts.sum
  | [], acts, base, _, _, hlen, _ => by
    have : acts = [] := List.length_eq_zero.mp hlen.symm
    simp [this, initSeeds]
  | idx :: rest, acts, base, hnd, hlt, hlen, hbase => by
    cases acts with
    | nil => simp at hlen
    | cons a as =>
      have hidx : idx < n := hlt idx (List.mem_cons_self _ _)
      have hmemrest : idx ∉ rest := (List.nodup_cons.mp hnd).1
      simp only [initSeeds, if_pos hidx, List.headD_cons, List.tail_cons]
      rw [List.map_cons, List.sum_cons]
      rw [initSeeds_getD_not_mem n _ rest as idx hmemrest]
      rw [getD_set_self_of_lt (by rw [hbase]; exact hidx) a]
      rw [initSeeds_frontier_sum n rest as (base.set idx a) (List.nodup_cons.mp hnd).2
        (fun i hi => hlt i (List.mem_cons_of_mem _ hi)) (by simpa using hlen)
        (by rw [List.length_set]; exact hbase)]
      simp

theorem build_adjacency_fst_bound {associations : List (Association F)} {num_nodes : ℕ}
    (hw : ∀ a ∈ associations, 0 ≤ a.forward_strength ∧ a.forward_strength ≤ 1) :
    ∀ i, ∀ p ∈ (build_adjacency associations num_nodes).1 i,
      (0 ≤ p.2 ∧ p.2 ≤ 1) ∧ p.1 < num_nodes := by
  intro i p hp
  simp only [build_adjacency] at hp
  obtain ⟨a, ha, rfl⟩ := List.mem_map.mp hp
  have hm := List.mem_filter.mp ha
  have hc := hm.2
  simp only [Bool.and_eq_true, decide_eq_true_eq] at hc
  exact ⟨hw a hm.1, hc.1.2⟩

/-- C3 (amended): for unidirectional spreading with distinct in-range seeds,
parallel nonnegative seed activations, per-hop decay `0 < γ < 1`, edge
weights in `[0, 1]` and seeds without incoming edges, the run completes and
the total final activation of the nodes first reached at depth `d` (the
last BFS layer of a depth-`d` run) is at most the seed mass times `γ ^ d`.
The original strict bound, and the bidirectional case, are refuted by
`c3_conservation_counterexample`. -/
theorem c3_spreading_layer_mass_le (num_nodes : ℕ) (associations : List (Association F))
    (seed_indices : List ℕ) (seed_activations : List F) (cfg : SpreadingConfig F)
    (depth : ℕ)
    (huni : cfg.bidirectional = false)
    (hγ0 : 0 < cfg.decay_per_hop) (hγ1 : cfg.decay_per_hop < 1)
    (hw : ∀ a ∈ associations, 0 ≤ a.forward_strength ∧ a.forward_strength ≤ 1 ∧
      0 ≤ a.backward_strength ∧ a.backward_strength ≤ 1)
    (hnoin : ∀ a ∈ associations, a.target ∉ seed_indices)
    (hnd : seed_indices.Nodup)
    (hlt : ∀ i ∈ seed_indices, i < num_nodes)
    (hlen : seed_indices.length = seed_activations.length)
    (hacts : ∀ x ∈ seed_activations, 0 ≤ x)
    (hdepth : 1 ≤ depth) :
    ∃ res, spread_activation num_nodes associations seed_indices seed_activations cfg
        depth = some res ∧
      ((res.visited_by_depth.getD depth []).map fun j => res.activations.getD j 0).sum ≤
        seed_activations.sum * cfg.decay_per_hop ^ depth := by
  have hbaselen : (List.replicate num_nodes (0 : F)).length = num_nodes :=
    List.length_replicate _ _
  have hinv : StateInv num_nodes
      ({ activations :=
          initSeeds num_nodes (List.replicate num_nodes 0) seed_indices seed_activations
         visited := seed_indices
         visited_by_depth := [seed_indices]
         frontier := seed_indices
         total_visited := seed_indices.length } : SpreadState F) :=
    { len := by rw [initSeeds_length]; exact hbaselen
      nonneg := initSeeds_nonneg _ _ _ _
        (fun x hx => by rw [List.eq_of_mem_replicate hx]) hacts
      zero_unvisited := fun j hj => by
        rw [initSeeds_getD_not_mem _ _ _ _ _ hj]
        exact getD_replicate_zero _ j
      frontier_nodup := hnd
      frontier_lt := hlt
      frontier_visited := fun j hj => hj
      vbd_ne := by simp
      vbd_last := by simp }
  obtain ⟨st', hloop, hbound⟩ :=
    spreadLoop_layer_bound huni hγ0.le ((build_adjacency associations num_nodes).2)
      (build_adjacency_fst_bound fun a ha => ⟨(hw a ha).1, (hw a ha).2.1⟩)
      depth _ hinv
  have hmass : frontierSum
      ({ activations :=
          initSeeds num_nodes (List.replicate num_nodes 0) seed_indices seed_activations
         visited := seed_indices
         visited_by_depth := [seed_indices]
         frontier := seed_indices
         total_visited := seed_indices.length } : SpreadState F) =
      seed_activations.sum := by
    unfold frontierSum
    exact initSeeds_frontier_sum num_nodes seed_indices seed_activations _
      hnd hlt hlen hbaselen
  refine ⟨{ activations := st'.activations, visited_by_depth := st'.visited_by_depth },
    ?_, ?_⟩
  · simp only [spread_activation, hloop]
  · have hidx : ([seed_indices] : List (List ℕ)).length - 1 + depth = depth := by simp
    rw [hidx, hmass] at hbound
    exact hbound

/-- C3 (counterexample to the claim as stated).  Both runs satisfy every
hypothesis of the claim (γ = 1/2 < 1, weights in [0,1], seeds without
incoming edges, depth ≥ 1):
* bidirectional (the claim quantifies over it): graph `0 → 1`, `1 → 2`,
  `3 → 1` on 4 nodes, seed `0` with activation `1`, depth 2.  The nodes
  first reached at depth 2 are `[2, 3]` and their total delivered
  activation is `1/4 + 7/80 = 27/80`, which is *greater* than the claimed
  bound `1 · (1/2)² = 1/4` (node 3 is reached backwards through node 1's
  incoming edge, which the fan normalisation does not bound by seed mass);
* unidirectional: single edge `0 → 1` with weight 1, seed `0`, depth 1:
  the delivered activation is exactly `1/2 = 1 · (1/2)¹`, so the
  *strict* inequality also fails.  -/
theorem c3_conservation_counterexample :
    (spread_activation (F := ℚ) 4 [⟨0, 1, 1, 1⟩, ⟨1, 2, 1, 1⟩, ⟨3, 1, 1, 1⟩] [0] [1]
        { decay_per_hop := 1 / 2, minimum_activation := 1 / 100, max_nodes := 100,
          bidirectional := true } 2 =
      some { activations := [87 / 80, 1 / 2, 1 / 4, 7 / 80],
             visited_by_depth := [[0], [1], [2, 3]] } ∧
      (([2, 3].map fun j =>
          ([87 / 80, 1 / 2, 1 / 4, (7 / 80 : ℚ)]).getD j 0).sum = 27 / 80) ∧
      (1 : ℚ) * (1 / 2) ^ 2 < 27 / 80) ∧
    (spread_activation (F := ℚ) 2 [⟨0, 1, 1, 1⟩] [0] [1]
        { decay_per_hop := 1 / 2, minimum_activation := 1 / 100, max_nodes := 100,
          bidirectional := false } 1 =
      some { activations := [1, 1 / 2], visited_by_depth := [[0], [1]] } ∧
      (([1].map fun j => ([1, (1 / 2 : ℚ)]).getD j 0).sum = 1 / 2) ∧
      ¬((1 : ℚ) / 2 < 1 * (1 / 2) ^ 1)) := by
  refine ⟨⟨?_, by norm_num, by norm_num⟩, ⟨?_, by norm_num, by norm_num⟩⟩
  · norm_num [spread_activation, spreadLoop, spreadFrontier, spreadSource, spreadEdges,
      initSeeds, build_adjacency, List.filter, List.get?, List.replicate, List.set,
      List.zipWith]
    rfl
  · norm_num [spread_activation, spreadLoop, spreadFrontier, spreadSource, spreadEdges,
      initSeeds, build_adjacency, List.filter, List.get?, List.replicate, List.set,
      List.zipWith]

/-- C3 witness: the amended bound applied to the concrete unidirectional
run with one edge `0 → 1`, seed `0`, `γ = 1/2`, depth 1. -/
theorem c3_spreading_layer_mass_le_witness :
    ∃ res, spread_activation (F := ℚ) 2 [⟨0, 1, 1, 1⟩] [0] [1]
        { decay_per_hop := 1 / 2, minimum_activation := 1 / 100, max_nodes := 1000,
          bidirectional := false } 1 = some res ∧
      ((res.visited_by_depth.getD 1 []).map fun j => res.activations.getD j 0).sum ≤
        ([1] : List ℚ).sum * (1 / 2 : ℚ) ^ 1 :=
  c3_spreading_layer_mass_le (F := ℚ) 2 [⟨0, 1, 1, 1⟩] [0] [1]
    { decay_per_hop := 1 / 2, minimum_activation := 1 / 100, max_nodes := 1000,
      bidirectional := false } 1
    rfl (by norm_num) (by norm_num)
    (by intro a ha; simp only [List.mem_singleton] at ha; subst ha; norm_num)
    (by intro a ha; simp only [List.mem_singleton] at ha; subst ha; simp)
    (by decide) (by decide) rfl
    (by intro x hx; simp only [List.mem_singleton] at hx; subst hx; norm_num) le_rfl

/-! ### Stable sorting: a stable descending sort of an index-increasing list
is ordered by (key descending, position ascending) -/

theorem orderedInsert_lex {α β : Type} [LinearOrder β] (key : α → β) (pos : α → ℕ)
    [DecidableRel fun a b : α => key b ≤ key a] (x : α) :
    ∀ m : List α,
      m.Pairwise (fun a b => key b < key a ∨ (key b = key a ∧ pos a < pos b)) →
      (∀ y ∈ m, pos x < pos y) →
      (m.orderedInsert (fun a b => key b ≤ key a) x).Pairwise
        (fun a b => key b < key a ∨ (key b = key a ∧ pos a < pos b))
  | [], _, _ => List.pairwise_singleton _ _
  | b :: m', hm, hpos => by
    have hm' := List.pairwise_cons.mp hm
    simp only [List.orderedInsert]
    by_cases h : key b ≤ key x
    · rw [if_pos h]
      refine List.pairwise_cons.mpr ⟨?_, hm⟩
      intro y hy
      rcases List.mem_cons.mp hy with rfl | hy'
      · rcases lt_or_eq_of_le h with hlt | heq
        · exact Or.inl hlt
        · exact Or.inr ⟨heq, hpos y (List.mem_cons_self _ _)⟩
      · rcases hm'.1 y hy' with hlt | ⟨heq, _⟩
        · rcases lt_or_eq_of_le h with hbx | hbx
          · exact Or.inl (hlt.trans hbx)
          · exact Or.inl (hbx ▸ hlt)
        · rcases lt_or_eq_of_le h with hbx | hbx
          · exact Or.inl (heq ▸ hbx)
          · exact Or.inr ⟨heq.trans hbx, hpos y (List.mem_cons_of_mem _ hy')⟩
    · rw [if_neg h]
      have hxb : key x < key b := lt_of_not_le h
      refine List.pairwise_cons.mpr ⟨?_, ?_⟩
      · intro z hz
        rcases (List.mem_orderedInsert _).mp hz with rfl | hz'
        · exact Or.inl hxb
        · exact hm'.1 z hz'
      · exact orderedInsert_lex key pos x m' hm'.2
          (fun y hy => hpos y (List.mem_cons_of_mem _ hy))

theorem insertionSort_lex {α β : Type} [LinearOrder β] (key : α → β) (pos : α → ℕ)
    [DecidableRel fun a b : α => key b ≤ key a] :
    ∀ l : List α, l.Pairwise (fun a b => pos a < pos b) →
      (l.insertionSort fun a b => key b ≤ key a).Pairwise
        (fun a b => key b < key a ∨ (key b = key a ∧ pos a < pos b))
  | [], _ => List.Pairwise.nil
  | x :: xs, hl => by
    have hl' := List.pairwise_cons.mp hl
    simp only [List.insertionSort]
    refine orderedInsert_lex key pos x _ (insertionSort_lex key pos xs hl'.2) ?_
    intro y hy
    exact hl'.1 y ((List.mem_insertionSort _).mp hy)

/-! ### Claim C5: the logistic retrieval probability -/

/-- C5: for noise `s > 0` the retrieval probability lies in `[0, 1]` (the
real-number model has no `NaN` or infinities, so the value is a fortiori
finite), equals exactly `1/2` at threshold activation, and is strictly
monotone in the activation. -/
theorem c5_retrieval_probability_props (A τ s : ℝ) (hs : 0 < s) :
    (0 ≤ retrieval_probability A τ s ∧ retrieval_probability A τ s ≤ 1) ∧
    retrieval_probability τ τ s = 1 / 2 ∧
    ∀ B, A < B → retrieval_probability A τ s < retrieval_probability B τ s := by
  have hden : ∀ x : ℝ, (0 : ℝ) < 1 + Real.exp x := fun x => by positivity
  refine ⟨⟨?_, ?_⟩, ?_, ?_⟩
  · simp only [retrieval_probability]
    positivity
  · simp only [retrieval_probability]
    rw [div_le_one (hden _)]
    have := Real.exp_pos ((τ - A) / s)
    linarith
  · simp only [retrieval_probability]
    rw [sub_self, zero_div, Real.exp_zero]
    norm_num
  · intro B hB
    simp only [retrieval_probability]
    have harg : (τ - B) / s < (τ - A) / s := by
      gcongr
    have hexp : Real.exp ((τ - B) / s) < Real.exp ((τ - A) / s) :=
      Real.exp_lt_exp.mpr harg
    exact one_div_lt_one_div_of_lt (hden _) (by linarith)

/-- C5 witness: the probability properties at `A = 0`, `τ = 3/10`,
`s = 1/10`. -/
theorem c5_retrieval_probability_witness :
    0 < (1 / 10 : ℝ) ∧
    ((0 ≤ retrieval_probability 0 (3 / 10) (1 / 10) ∧
        retrieval_probability 0 (3 / 10) (1 / 10) ≤ 1) ∧
      retrieval_probability (3 / 10) (3 / 10) (1 / 10) = 1 / 2 ∧
      ∀ B, (0 : ℝ) < B →
        retrieval_probability 0 (3 / 10) (1 / 10) <
          retrieval_probability B (3 / 10) (1 / 10)) :=
  ⟨by norm_num, c5_retrieval_probability_props 0 (3 / 10) (1 / 10) (by norm_num)⟩

/-! ### Claim C6: appending a fresh access strictly increases base level -/

/-- C6: for every access history (the empty one included), current time and
decay rate, appending an access at the current time strictly increases the
base-level activation (`⊥` models `f64::NEG_INFINITY`). -/
theorem c6_base_level_append_gt (history : List ℝ) (now d : ℝ) :
    compute_base_level history now d < compute_base_level (history ++ [now]) now d := by
  unfold compute_base_level
  have happ : history ++ [now] ≠ [] := by simp
  rw [if_neg happ]
  have hterm : (max (now - now) 1000 / 1000 : ℝ) ^ (-d) = 1 := by
    have h0 : (max (0 : ℝ) 1000) = 1000 := max_eq_right (by norm_num)
    rw [sub_self, h0]
    norm_num [Real.one_rpow]
  by_cases hh : history = []
  · rw [if_pos hh]
    exact WithBot.bot_lt_coe _
  · rw [if_neg hh]
    rw [WithBot.coe_lt_coe]
    have hpos : ∀ x ∈ history.map fun timestamp =>
        (max (now - timestamp) 1000 / 1000 : ℝ) ^ (-d), 0 < x := by
      intro x hx
      obtain ⟨t, ht, rfl⟩ := List.mem_map.mp hx
      apply Real.rpow_pos_of_pos
      have hmax : (1000 : ℝ) ≤ max (now - t) 1000 := le_max_right _ _
      positivity
    have hS : 0 < (history.map fun timestamp =>
        (max (now - timestamp) 1000 / 1000 : ℝ) ^ (-d)).sum :=
      List.sum_pos _ hpos (by simpa using hh)
    apply Real.log_lt_log hS
    rw [List.map_append, List.sum_append]
    simp only [List.map_cons, List.map_nil, List.sum_cons, List.sum_nil, add_zero, hterm]
    linarith

/-! ### Claim C7: the effective reconsolidation thresholds keep a 0.05 gap -/

/-- C7: for base thresholds `θ_low ≤ θ_high`, any access count and any
nonnegative days-since-last-access, the effective thresholds satisfy
`θ_high_eff ≥ θ_low_eff + 0.05` (the final `max` enforces the gap for any
configuration). -/
theorem c7_effective_thresholds_gap (theta_low theta_high : F) (access_count : ℕ)
    (days_since_last_access : F) (config : ReconsolidationConfig F)
    (hθ : theta_low ≤ theta_high) (hdays : 0 ≤ days_since_last_access) :
    (compute_effective_thresholds theta_low theta_high access_count
        days_since_last_access config).1 + 5 / 100 ≤
      (compute_effective_thresholds theta_low theta_high access_count
        days_since_last_access config).2 := by
  simp only [compute_effective_thresholds]
  exact le_max_right _ _

/-- C7 witness: the gap at `θ_low = 0.10`, `θ_high = 0.55`, 7 accesses,
3 days dormant, default configuration, over `ℚ`. -/
theorem c7_effective_thresholds_gap_witness :
    (1 / 10 : ℚ) ≤ 11 / 20 ∧ (0 : ℚ) ≤ 3 ∧
    (compute_effective_thresholds (1 / 10 : ℚ) (11 / 20) 7 3
        (ReconsolidationConfig.default ℚ)).1 + 5 / 100 ≤
      (compute_effective_thresholds (1 / 10 : ℚ) (11 / 20) 7 3
        (ReconsolidationConfig.default ℚ)).2 :=
  ⟨by norm_num, by norm_num,
    c7_effective_thresholds_gap (1 / 10) (11 / 20) 7 3 (ReconsolidationConfig.default ℚ)
      (by norm_num) (by norm_num)⟩

/-! ### Claim C8: pinned entities are immune to decay and pruning -/

/-- C8: a pinned location's familiarity is returned unchanged by
`compute_decayed_familiarity` regardless of timestamps and configuration, and
`compute_pruning_candidates` never includes a pinned visual memory: every
returned candidate's index resolves to a memory with `is_pinned = false`. -/
theorem c8_pinned_immune {F : Type} [LinearOrderedField F] :
    (∀ (current_familiarity last_accessed_ms current_time_ms : F)
        (config : LocationConfig F),
      compute_decayed_familiarity current_familiarity last_accessed_ms current_time_ms
        true config = current_familiarity) ∧
    (∀ (memories : List (VisualMemory F)) (current_time_ms : F) (config : VisualConfig F),
      ∀ c ∈ compute_pruning_candidates memories current_time_ms config,
        ∃ mem, memories.get? c.index = some mem ∧ mem.is_pinned = false) := by
  constructor
  · intro fam last now config
    simp [compute_decayed_familiarity]
  · intro memories now config c hc
    have hc' : c ∈ memories.enum.filterMap _ :=
      (List.mem_insertionSort _).mp hc
    obtain ⟨p, hp, hfp⟩ := List.mem_filterMap.mp hc'
    obtain ⟨i, mem⟩ := p
    have hget : memories.get? i = some mem := by
      rw [List.get?_eq_getElem?]
      exact List.mem_enum_iff_getElem?.mp hp
    dsimp only at hfp
    cases hpin : mem.is_pinned with
    | true =>
      rw [hpin] at hfp
      simp at hfp
    | false =>
      refine ⟨mem, ?_, hpin⟩
      rw [hpin] at hfp
      simp only [Bool.false_eq_true, if_false] at hfp
      split_ifs at hfp with h1 h2 h3
      · have h := Option.some.inj hfp
        rw [← h]
        exact hget
      · have h := Option.some.inj hfp
        rw [← h]
        exact hget

/-! ### Claim C2: the working-memory boost on similarities -/

theorem getD_enum_map {α β : Type} (l : List α) (g : ℕ × α → β) (d : β) (i : ℕ)
    (hi : i < l.length) :
    (l.enum.map g).getD i d = g (i, l[i]) := by
  have hlen : (l.enum.map g).length = l.length := by simp
  rw [List.getD_eq_getElem _ _ (by rw [hlen]; exact hi)]
  rw [List.getElem_map]
  congr 1
  simp

/-- C2 (counterexample to the claim as stated): with probe `[1.0]`, the single
trace `[-1.0]` and working-memory boost `2.0 ≥ 1`, the cosine similarity is
exactly `-1` and the value passed to the MINERVA-2 cube is
`min(1, -1 · 2) = -2`, which lies below `-1` and differs from the clamped
value `clamp(-2, -1, 1) = -1` asserted by the claim: the code caps the
boosted similarity above at `1.0` but does not clamp it below. -/
theorem c2_wm_boost_counterexample :
    boosted_similarities
      { probe_embedding := [1], memory_embeddings := [[-1]], access_histories_ms := [[]],
        emotional_weights := [1 / 2], decay_rates := [1 / 2],
        working_memory_boosts := [2], associations := [], current_time_ms := 0 } = [-2] ∧
    (-2 : ℝ) < -1 ∧
    max (-1) (min ((-1 : ℝ) * 2) 1) = -1 := by
  refine ⟨?_, by norm_num, by norm_num⟩
  norm_num [boosted_similarities, similarities, cosine_similarity_batch, List.enum,
    List.zipWith, Real.sqrt_one, List.enumFrom]

/-- C2 (amended): in `retrieve`, the working-memory boost is applied to each
cosine similarity *before* the MINERVA-2 cubing, and the value passed to the
nonlinearity for trace `i` is `min(1, s_i · b_i)`: it never exceeds `1`, but
it is not clamped below, so for negative similarities with boost `> 1` it can
lie below `-1` (see `c2_wm_boost_counterexample`).  The boosts produced by
`compute_working_memory_boost` are always at least `1` when `max_boost ≥ 0`. -/
theorem c2_wm_boost_amended (input : RetrievalInput) :
    probe_activations input = (boosted_similarities input).map (fun s => s ^ 3) ∧
    (∀ i, (boosted_similarities input).getD i 0 =
      min ((similarities input).getD i 0 * input.working_memory_boosts.getD i 1) 1) ∧
    (∀ i, (boosted_similarities input).getD i 0 ≤ 1) ∧
    (∀ (activated_at_ms current_time_ms : ℝ) (wmconfig : WorkingMemoryConfig),
      0 ≤ wmconfig.max_boost →
      1 ≤ compute_working_memory_boost activated_at_ms current_time_ms wmconfig) := by
  have hmin : ∀ i, (boosted_similarities input).getD i 0 =
      min ((similarities input).getD i 0 * input.working_memory_boosts.getD i 1) 1 := by
    intro i
    by_cases hi : i < (similarities input).length
    · unfold boosted_similarities
      rw [getD_enum_map _ _ _ _ hi]
      dsimp only
      rw [List.getD_eq_getElem _ _ hi]
    · have hlen : (boosted_similarities input).length = (similarities input).length := by
        simp [boosted_similarities]
      rw [List.getD_eq_default _ _ (by rw [hlen]; exact le_of_not_lt hi),
        List.getD_eq_default _ _ (le_of_not_lt hi), zero_mul]
      norm_num
  refine ⟨rfl, hmin, fun i => by rw [hmin i]; exact min_le_right _ _, ?_⟩
  intro t now wmconfig hmb
  simp only [compute_working_memory_boost]
  by_cases hage : now - t < 0
  · rw [if_pos hage]
  · rw [if_neg hage]
    have hexp := Real.exp_pos (-(now - t) / wmconfig.decay_ms)
    nlinarith

/-! ### Claim C4: ranking, filtering and truncation of `retrieve` -/

theorem mem_retrieval_candidates {input : RetrievalInput} {config : RetrievalConfig}
    {c : RetrievalCandidate} (hc : c ∈ retrieval_candidates input config) :
    c.probability = retrieval_probability c.total_activation config.activation_threshold
      config.noise_parameter ∧ config.min_probability ≤ c.probability := by
  obtain ⟨i, hi, hf⟩ := List.mem_filterMap.mp hc
  dsimp only at hf
  split_ifs at hf with h
  rw [← Option.some.inj hf]
  exact ⟨rfl, not_lt.mp h⟩

theorem retrieval_candidates_index_lt (input : RetrievalInput) (config : RetrievalConfig) :
    (retrieval_candidates input config).Pairwise fun a b => a.index < b.index := by
  unfold retrieval_candidates
  refine List.Pairwise.filterMap _ ?_ (List.pairwise_lt_range _)
  intro i j hij c hc c' hc'
  rw [Option.mem_def] at hc hc'
  have hci : c.index = i := by
    dsimp only at hc
    split_ifs at hc
    rw [← Option.some.inj hc]
  have hcj : c'.index = j := by
    dsimp only at hc'
    split_ifs at hc'
    rw [← Option.some.inj hc']
  rw [hci, hcj]
  exact hij

/-- C4: on inputs whose access-history array is parallel to the embeddings
array (the spec's length invariant; base levels are indexed by trace), the
candidate list returned by `retrieve` has length at most `max_results`, is
sorted by total activation descending with ties broken by index ascending
(`sort_by` is stable and the pre-sort candidates have strictly increasing
indices), and every returned candidate's probability field is the retrieval
probability of its total activation and is at least `min_probability`. -/
theorem c4_retrieve_ranked (input : RetrievalInput) (config : RetrievalConfig)
    (hlen : input.access_histories_ms.length = input.memory_embeddings.length) :
    (retrieve input config).length ≤ config.max_results ∧
    (retrieve input config).Pairwise (fun a b =>
      b.total_activation < a.total_activation ∨
        (b.total_activation = a.total_activation ∧ a.index < b.index)) ∧
    ∀ c ∈ retrieve input config,
      c.probability = retrieval_probability c.total_activation config.activation_threshold
        config.noise_parameter ∧ config.min_probability ≤ c.probability := by
  have hsub : ∀ c ∈ retrieve input config, c ∈ retrieval_candidates input config := by
    intro c hc
    unfold retrieve at hc
    split_ifs at hc with h
    · simp at hc
    · exact (List.mem_insertionSort _).mp ((List.take_sublist _ _).subset hc)
  refine ⟨?_, ?_, ?_⟩
  · unfold retrieve
    split_ifs with h
    · simp
    · rw [List.length_take]
      exact min_le_left _ _
  · unfold retrieve
    split_ifs with h
    · simp
    · refine List.Pairwise.sublist (List.take_sublist _ _) ?_
      exact insertionSort_lex (fun c : RetrievalCandidate => c.total_activation)
        (fun c => c.index) _ (retrieval_candidates_index_lt input config)
  · intro c hc
    exact mem_retrieval_candidates (hsub c hc)

/-- C4 witness: the ranking guarantees at the one-trace sample input with the
default configuration. -/
theorem c4_retrieve_ranked_witness :
    sampleRetrievalInput.access_histories_ms.length =
      sampleRetrievalInput.memory_embeddings.length ∧
    ((retrieve sampleRetrievalInput RetrievalConfig.default).length ≤
      RetrievalConfig.default.max_results ∧
    (retrieve sampleRetrievalInput RetrievalConfig.default).Pairwise (fun a b =>
      b.total_activation < a.total_activation ∨
        (b.total_activation = a.total_activation ∧ a.index < b.index)) ∧
    ∀ c ∈ retrieve sampleRetrievalInput RetrievalConfig.default,
      c.probability = retrieval_probability c.total_activation
        RetrievalConfig.default.activation_threshold
        RetrievalConfig.default.noise_parameter ∧
      RetrievalConfig.default.min_probability ≤ c.probability) :=
  ⟨rfl, c4_retrieve_ranked sampleRetrievalInput RetrievalConfig.default rfl⟩

/-! ### Claim C9: the visual pipeline's additive boosts -/

/-- C9: every candidate reported by `retrieve_visual` has a total activation
equal to the standard combined total of its trace plus the significance boost
`significance · significance_boost` plus the emotional overhang boost, its
probability is the logistic of exactly that boosted total, and the overhang
boost is `0` whenever the emotional weight is at most `0.7` and
`(w − 0.7) · emotional_boost` when it exceeds `0.7`. -/
theorem c9_visual_boosts (input : VisualRetrievalInput) (config : VisualRetrievalConfig)
    (c : VisualRetrievalCandidate) (hc : c ∈ retrieve_visual input config) :
    c.total_activation =
      (combine_activations ((visual_base_levels input config).getD c.index ⊥)
        ((visual_probe_activations input).getD c.index 0)
        ((visual_spreading_activations input config).getD c.index 0)
        (input.emotional_weights.getD c.index (1 / 2))).total +
      input.significance_scores.getD c.index (1 / 2) * config.significance_boost +
      emotional_overhang_boost (input.emotional_weights.getD c.index (1 / 2)) config ∧
    c.probability = retrieval_probability c.total_activation config.activation_threshold
      config.noise_parameter ∧
    (input.emotional_weights.getD c.index (1 / 2) ≤ 7 / 10 →
      emotional_overhang_boost (input.emotional_weights.getD c.index (1 / 2)) config = 0) ∧
    (7 / 10 < input.emotional_weights.getD c.index (1 / 2) →
      emotional_overhang_boost (input.emotional_weights.getD c.index (1 / 2)) config =
        (input.emotional_weights.getD c.index (1 / 2) - 7 / 10) * config.emotional_boost) := by
  have hc' : c ∈ visual_candidates input config := by
    unfold retrieve_visual at hc
    split_ifs at hc with h
    · simp at hc
    · exact (List.mem_insertionSort _).mp ((List.take_sublist _ _).subset hc)
  obtain ⟨i, hi, hf⟩ := List.mem_filterMap.mp hc'
  dsimp only at hf
  split_ifs at hf with h
  rw [← Option.some.inj hf]
  refine ⟨rfl, rfl, ?_, ?_⟩
  · intro h3
    simp only [emotional_overhang_boost]
    rw [if_neg (not_lt.mpr h3)]
  · intro h4
    simp only [emotional_overhang_boost]
    rw [if_pos h4]

/-- `retrieve_visual` at the sample input returns exactly the sample
candidate. -/
theorem retrieve_visual_sample_eq :
    retrieve_visual sampleVisualInput sampleVisualConfig = [sampleVisualCandidate] := by
  have h1 : visual_probe_activations sampleVisualInput = [1] := by
    simp only [visual_probe_activations, sampleVisualInput, cosine_similarity_batch,
      nonlinear_activation_batch]
    norm_num [Real.sqrt_one, List.zipWith]
  have h2 : visual_base_levels sampleVisualInput sampleVisualConfig = [⊥] := by
    simp [visual_base_levels, sampleVisualInput, compute_base_level]
  have h3 : visual_spreading_activations sampleVisualInput sampleVisualConfig = [0] := by
    simp [visual_spreading_activations, sampleVisualInput, sampleVisualConfig, List.replicate]
  have h4 : visual_candidates sampleVisualInput sampleVisualConfig =
      [sampleVisualCandidate] := by
    unfold visual_candidates
    rw [h1, h2, h3]
    simp only [sampleVisualInput, List.range_succ, List.range_zero, List.filterMap_cons,
      List.filterMap_nil, List.nil_append]
    norm_num [combine_activations, emotional_overhang_boost, sampleVisualConfig,
      WithBot.unbot'_bot]
    simp only [List.range_succ, List.range_zero, List.nil_append, List.filterMap_cons,
      List.filterMap_nil, List.getElem?_cons_zero, Option.getD_some]
    rw [if_neg (not_lt.mpr (by simp only [retrieval_probability]; positivity :
      (0 : ℝ) ≤ retrieval_probability (1 + 1 / 10) (3 / 10) (1 / 10)))]
    simp only [sampleVisualCandidate]
    norm_num
  unfold retrieve_visual
  rw [if_neg (by simp [sampleVisualInput]), h4]
  simp [sampleVisualConfig, List.insertionSort]

/-- C9 witness: the boost decomposition at the sample visual input, where the
returned candidate's boosted total is `11/10 = 1 + (1/2)·(1/5) + 0`. -/
theorem c9_visual_boosts_witness :
    sampleVisualCandidate ∈ retrieve_visual sampleVisualInput sampleVisualConfig ∧
    (sampleVisualCandidate.total_activation =
      (combine_activations
        ((visual_base_levels sampleVisualInput sampleVisualConfig).getD
          sampleVisualCandidate.index ⊥)
        ((visual_probe_activations sampleVisualInput).getD sampleVisualCandidate.index 0)
        ((visual_spreading_activations sampleVisualInput sampleVisualConfig).getD
          sampleVisualCandidate.index 0)
        (sampleVisualInput.emotional_weights.getD sampleVisualCandidate.index (1 / 2))).total +
      sampleVisualInput.significance_scores.getD sampleVisualCandidate.index (1 / 2) *
        sampleVisualConfig.significance_boost +
      emotional_overhang_boost
        (sampleVisualInput.emotional_weights.getD sampleVisualCandidate.index (1 / 2))
        sampleVisualConfig ∧
    sampleVisualCandidate.probability =
      retrieval_probability sampleVisualCandidate.total_activation
        sampleVisualConfig.activation_threshold sampleVisualConfig.noise_parameter ∧
    (sampleVisualInput.emotional_weights.getD sampleVisualCandidate.index (1 / 2) ≤ 7 / 10 →
      emotional_overhang_boost
        (sampleVisualInput.emotional_weights.getD sampleVisualCandidate.index (1 / 2))
        sampleVisualConfig = 0) ∧
    (7 / 10 < sampleVisualInput.emotional_weights.getD sampleVisualCandidate.index (1 / 2) →
      emotional_overhang_boost
        (sampleVisualInput.emotional_weights.getD sampleVisualCandidate.index (1 / 2))
        sampleVisualConfig =
        (sampleVisualInput.emotional_weights.getD sampleVisualCandidate.index (1 / 2) - 7 / 10) *
          sampleVisualConfig.emotional_boost)) :=
  have hmem : sampleVisualCandidate ∈ retrieve_visual sampleVisualInput sampleVisualConfig := by
    rw [retrieve_visual_sample_eq]
    exact List.mem_singleton.mpr rfl
  ⟨hmem, c9_visual_boosts sampleVisualInput sampleVisualConfig sampleVisualCandidate hmem⟩

end LucidCore
